import Mathlib

/-!
Verification of the PDF outline reconstruction and chapter-extraction engine
(`reports/pdf_parser.py`).

The Python classes `PdfOutlineNode` / `PdfParser` are shallowly embedded here:
the outline tree is the inductive `PNode` (title, 1-based page number, level,
children).  Parent back-references of the Python objects are embedded as
explicit contexts: where a Python method walks `node.parent` upward, the Lean
function receives the list of following-sibling lists, one entry per ancestor
level (innermost level first); the list is empty exactly when the node's
parent is the "Root" sentinel.  The pdfplumber/pypdf page primitives are
embedded as `PLine`/`PTable`/`Page`/`PDoc`; both page collections of the
Python object (`reader.pages` and `_plumber_pdf.pages`) view the same open
document and are embedded as the single list `PDoc.pages`.
-/

/-- Embedding of `PdfOutlineNode`: `title`, `page_number` (1-based, `0` means
unresolved destination), `level`, and the ordered `children`. -/
inductive PNode where
  | mk : String → Nat → Int → List PNode → PNode

def PNode.title : PNode → String
  | .mk t _ _ _ => t

def PNode.page_number : PNode → Nat
  | .mk _ p _ _ => p

def PNode.level : PNode → Int
  | .mk _ _ l _ => l

def PNode.children : PNode → List PNode
  | .mk _ _ _ cs => cs

mutual

/-- Embedding of `PdfParser._first_valid_page_in_subtree`: the node's own
`page_number` if positive, else the first positive page found in a pre-order
walk of the children. -/
def firstValidPageInSubtree : PNode → Option Nat
  | .mk _ page _ cs => if page > 0 then some page else firstValidInChildren cs

/-- The `for child in node.children` loop of `_first_valid_page_in_subtree`. -/
def firstValidInChildren : List PNode → Option Nat
  | [] => none
  | c :: cs =>
    match firstValidPageInSubtree c with
    | some p => some p
    | none => firstValidInChildren cs

end

/-- Embedding of `PdfParser._find_next_start_page`.  The Python loop walks
`current = node; ...; current = current.parent`; here the upward chain is the
context `ctx`: for each level starting at the node's own level, the list of
siblings following `current` in its parent's children.  `ctx = []` encodes
`current.parent` being the `"Root"` sentinel (or absent), where the loop
returns the document's total page count. -/
def findNextStartPage (total : Nat) : List (List PNode) → Nat
  | [] => total
  | foll :: up =>
    match foll with
    | [] => findNextStartPage total up
    | next :: _ =>
      match firstValidPageInSubtree next with
      | some p => if p > 0 then p else findNextStartPage total up
      | none => findNextStartPage total up

/-- A node as annotated by `PdfParser._set_next_sibling_pages`: the original
fields plus the assigned `next_sibling_page`. -/
inductive BNode where
  | mk : String → Nat → Nat → List BNode → BNode

def BNode.title : BNode → String
  | .mk t _ _ _ => t

def BNode.page_number : BNode → Nat
  | .mk _ p _ _ => p

def BNode.boundary : BNode → Nat
  | .mk _ _ b _ => b

def BNode.children : BNode → List BNode
  | .mk _ _ _ cs => cs

/-- The `next_sibling_page` value assigned by `_set_next_sibling_pages` to a
child whose following siblings are `rest` and whose ancestor context is `up`:
the raw `page_number` of the immediate next sibling when one exists, else the
result of `_find_next_start_page`. -/
def assignedBoundary (total : Nat) (up : List (List PNode)) : List PNode → Nat
  | next :: _ => next.page_number
  | [] => findNextStartPage total ([] :: up)

/-- Embedding of the child loop of `PdfParser._set_next_sibling_pages`:
every child of the list gets its `assignedBoundary`, and the recursion then
annotates that child's own children (with the child's following siblings
pushed onto the ancestor context). -/
def annotateChildren (total : Nat) (up : List (List PNode)) : List PNode → List BNode
  | [] => []
  | PNode.mk t p _lvl cs :: rest =>
    BNode.mk t p (assignedBoundary total up rest) (annotateChildren total (rest :: up) cs) ::
      annotateChildren total up rest
termination_by l => sizeOf l
decreasing_by
  all_goals simp_wf
  all_goals omega

/-- Embedding of `PdfParser._get_next_section_title`: the immediate next
sibling's title if any, else the parent's immediate next sibling's title
(`_get_parent_next_sibling`, which gives up when the parent is `"Root"`),
else the empty string.  The context encoding is as in `findNextStartPage`. -/
def getNextSectionTitle : List (List PNode) → String
  | (n :: _) :: _ => n.title
  | [] :: (p :: _) :: _ => p.title
  | _ => ""

/-- Embedding of `PdfOutlineNode.get_section_path`.  The argument is the
upward title chain of the node: its own title first, then each ancestor's
title, ending with the root's.  The Python loop runs while the current object
has a parent and is not titled `"Root"`, inserting each visited title at the
front. -/
def sectionPathLoop : List String → List String
  | [] => []
  | [_] => []
  | t :: rest => if t = "Root" then [] else sectionPathLoop rest ++ [t]

lemma findNextStartPage_of_all_nil (total : Nat) (up : List (List PNode))
    (h : ∀ l ∈ up, l = []) : findNextStartPage total up = total := by
  induction up with
  | nil => rfl
  | cons foll up ih =>
    have hf : foll = [] := h foll (by simp)
    subst hf
    simpa [findNextStartPage] using ih (fun l hl => h l (by simp [hl]))

lemma annotateChildren_ne_nil (total : Nat) (up : List (List PNode)) (c : PNode)
    (rest : List PNode) : annotateChildren total up (c :: rest) ≠ [] := by
  cases c with
  | mk t p lvl cs => simp [annotateChildren]

/-- Claim C1 (counterexample).  The claim states that for consecutive siblings
`(A, B)` the resolver sets `A.next_sibling_page` to `firstValidPage(B)`,
descending into `B`'s subtree when `B.page_number = 0`.  On the tree
`Root → [A(page 1), B(page 0, children [B1(page 5)])]` the code's
`_set_next_sibling_pages` assigns `A.next_sibling_page = B.page_number = 0`,
while `firstValidPage(B) = 5`: the subtree descent happens only in
`_find_next_start_page`, which is called for last children only. -/
theorem c1_sibling_boundary_counterexample :
    ((annotateChildren 10 [] [PNode.mk "A" 1 0 [], PNode.mk "B" 0 0 [PNode.mk "B1" 5 1 []]]).map
        BNode.boundary).head? = some 0 ∧
    firstValidPageInSubtree (PNode.mk "B" 0 0 [PNode.mk "B1" 5 1 []]) = some 5 ∧
    (0 : Nat) ≠ 5 := by
  refine ⟨?_, by rfl, by decide⟩
  simp [annotateChildren, assignedBoundary, PNode.page_number, BNode.boundary]

/-- Claim C1 (amended).  After boundary resolution, a node `A` immediately
followed by a sibling `B` gets `next_sibling_page = B.page_number` verbatim —
even when that value is `0`; the `firstValidPage` subtree descent is applied
only by the upward search performed for last children. -/
theorem c1_sibling_boundary_amended (total : Nat) (up : List (List PNode)) (a b : PNode)
    (rest : List PNode) :
    ((annotateChildren total up (a :: b :: rest)).map BNode.boundary).head? =
      some b.page_number := by
  cases a with
  | mk t p lvl cs => simp [annotateChildren, assignedBoundary, BNode.boundary]

/-- Claim C2.  A last child whose entire ancestor chain has no following
sibling at any level (`up` is a stack of empty following-sibling lists, of
arbitrary depth) receives `next_sibling_page = total` — the document's total
page count — after escalating through every ancestor level. -/
theorem c2_trailing_last_child_total (total : Nat) (up : List (List PNode))
    (cs : List PNode) (c : PNode) (h : ∀ l ∈ up, l = []) :
    ((annotateChildren total up (cs ++ [c])).map BNode.boundary).getLast? = some total := by
  have hfnsp : findNextStartPage total ([] :: up) = total := by
    apply findNextStartPage_of_all_nil
    intro l hl
    rcases List.mem_cons.mp hl with h1 | h1
    · exact h1
    · exact h l h1
  induction cs with
  | nil =>
    cases c with
    | mk t p lvl ccs => simp [annotateChildren, assignedBoundary, hfnsp, BNode.boundary]
  | cons x cs ih =>
    cases x with
    | mk t p lvl xcs =>
      have hne : (annotateChildren total up (cs ++ [c])).map BNode.boundary ≠ [] := by
        intro hnil
        rw [hnil] at ih
        simp at ih
      have hstep : annotateChildren total up ((PNode.mk t p lvl xcs :: cs) ++ [c]) =
          BNode.mk t p (assignedBoundary total up (cs ++ [c]))
              (annotateChildren total ((cs ++ [c]) :: up) xcs) ::
            annotateChildren total up (cs ++ [c]) := by
        simp [annotateChildren]
      rw [hstep, List.map_cons]
      cases hT : (annotateChildren total up (cs ++ [c])).map BNode.boundary with
      | nil => exact absurd hT hne
      | cons y ys =>
        rw [List.getLast?_cons_cons, ← hT]
        exact ih

/-- Witness for `c2_trailing_last_child_total`: a single child at nesting
depth three (two enclosing ancestor levels, none of which has a following
sibling) gets the total page count `7` as its boundary. -/
theorem c2_trailing_last_child_total_witness :
    ((annotateChildren 7 [[], []] ([] ++ [PNode.mk "X" 3 0 []])).map
        BNode.boundary).getLast? = some 7 :=
  c2_trailing_last_child_total 7 [[], []] [] (PNode.mk "X" 3 0 []) (by simp)

/-- Claim C3 (counterexample).  The claim states that `section_path(node)`
excludes the node's own title and has length `d - 1` for a node at depth `d`.
For the node `B` at depth 2 in the tree `Root → A → B` the upward chain of
titles is `["B", "A", "Root"]`, and `get_section_path` returns `["A", "B"]`:
it includes `B`'s own title and has length `2`, not `1`. -/
theorem c3_section_path_counterexample :
    sectionPathLoop ["B", "A", "Root"] = ["A", "B"] ∧
    "B" ∈ sectionPathLoop ["B", "A", "Root"] ∧
    (sectionPathLoop ["B", "A", "Root"]).length ≠ 1 := by
  refine ⟨by decide, by decide, by decide⟩

/-- Claim C3 (amended).  For a non-root node, `get_section_path` returns the
ordered list of titles from the outermost non-root ancestor down to **and
including** the node itself (length `d` for depth `d`): the upward chain
`ts` (node first, root excluded) yields `ts.reverse`, provided no title on
the chain is the sentinel `"Root"`. -/
theorem c3_section_path_amended (ts : List String) (h1 : ts ≠ [])
    (h2 : ∀ t ∈ ts, t ≠ "Root") :
    sectionPathLoop (ts ++ ["Root"]) = ts.reverse := by
  induction ts with
  | nil => exact absurd rfl h1
  | cons t ts ih =>
    have ht : t ≠ "Root" := h2 t (by simp)
    cases ts with
    | nil => simp [sectionPathLoop, ht]
    | cons u us =>
      have hrec := ih (by simp) (fun x hx => h2 x (by simp [List.mem_cons] at hx ⊢; tauto))
      calc sectionPathLoop ((t :: u :: us) ++ ["Root"])
          = sectionPathLoop ((u :: us) ++ ["Root"]) ++ [t] := by
            simp [sectionPathLoop, ht]
        _ = (u :: us).reverse ++ [t] := by rw [hrec]
        _ = (t :: u :: us).reverse := by simp

/-- Witness for `c3_section_path_amended`: the chain of `B` in
`Root → A → B` yields the path `["A", "B"]`. -/
theorem c3_section_path_amended_witness :
    sectionPathLoop (["B", "A"] ++ ["Root"]) = ["B", "A"].reverse :=
  c3_section_path_amended ["B", "A"] (by decide) (by decide)

/-- Claim C4 (counterexample).  The claim states that the next-section title
used for end-page truncation is resolved by the same multi-level
sibling/ancestor walk as the boundary page.  For a deepest node whose next
section is two ancestor levels up (context: no following sibling at the
node's level, none at the parent's, and `P2` (page 10) following the
grandparent), `_get_next_section_title` returns `""`, while the boundary walk
`_find_next_start_page` resolves page `10` — the page of `P2`, whose title
`"P2"` is not the returned title. -/
theorem c4_next_section_title_counterexample :
    getNextSectionTitle [[], [], [PNode.mk "P2" 10 0 []]] = "" ∧
    findNextStartPage 50 [[], [], [PNode.mk "P2" 10 0 []]] = 10 ∧
    (PNode.mk "P2" 10 0 []).title = "P2" ∧ ("" : String) ≠ "P2" := by
  refine ⟨rfl, ?_, rfl, by decide⟩
  simp [findNextStartPage, firstValidPageInSubtree]

/-- Claim C4 (amended).  `_get_next_section_title` performs at most a two-level
lookup: the immediate next sibling's title if one exists, else the parent's
immediate next sibling's title, else the empty string — it does not escalate
further up the ancestor chain. -/
theorem c4_next_section_title_amended (n p : PNode) (r r2 : List PNode)
    (up up2 up3 : List (List PNode)) :
    getNextSectionTitle ((n :: r) :: up) = n.title ∧
    getNextSectionTitle ([] :: (p :: r2) :: up2) = p.title ∧
    getNextSectionTitle ([] :: [] :: up3) = "" ∧
    getNextSectionTitle [[]] = "" ∧
    getNextSectionTitle [] = "" :=
  ⟨rfl, rfl, rfl, rfl, rfl⟩

/-- Embedding of Python's substring test `needle in hay` on character
lists: some suffix of `hay` starts with `needle`. -/
def containsSubList : List Char → List Char → Bool
  | [], needle => needle.isEmpty
  | c :: t, needle => needle.isPrefixOf (c :: t) || containsSubList t needle

/-- Python's `needle in hay` for strings. -/
def strContains (hay needle : String) : Bool := containsSubList hay.toList needle.toList

def dropWs (cs : List Char) : List Char := cs.dropWhile (fun c => c.isWhitespace)

/-- Embedding of Python's `str.strip()` on character lists. -/
def stripChars (cs : List Char) : List Char :=
  ((cs.dropWhile (fun c => c.isWhitespace)).reverse.dropWhile (fun c => c.isWhitespace)).reverse

/-- Python's `str.strip()`. -/
def pyStrip (s : String) : String := String.mk (stripChars s.toList)

/-- Embedding of Python's `text.split(chr(10))` on character lists. -/
def splitCharsOnNl : List Char → List (List Char)
  | [] => [[]]
  | c :: rest =>
    if c = '\n' then [] :: splitCharsOnNl rest
    else
      match splitCharsOnNl rest with
      | l :: ls => (c :: l) :: ls
      | [] => [[c]]

/-- Python's `sep.join(parts)`. -/
def joinWith (sep : String) : List String → String
  | [] => ""
  | [s] => s
  | s :: rest => s ++ sep ++ joinWith sep rest

/-- Character-list version of joining with a newline. -/
def joinNlChars : List (List Char) → List Char
  | [] => []
  | [l] => l
  | l :: ls => l ++ '\n' :: joinNlChars ls

/-- Header/footer pattern 1 of `_clean_text`: a page-number line, optionally
introduced by the page marker character and closed by the page character,
with a run of digits between. -/
def patPageNum (s : String) : Bool :=
  let cs := dropWs s.toList
  let cs :=
    match cs with
    | '第' :: r => dropWs r
    | _ => cs
  let ds := cs.takeWhile (fun c => c.isDigit)
  let rest := cs.dropWhile (fun c => c.isDigit)
  !ds.isEmpty &&
    (match dropWs rest with
     | '页' :: r => (dropWs r).isEmpty
     | _ => false)

/-- Header/footer pattern 2 of `_clean_text`: a digits-only line. -/
def patBareNumber (s : String) : Bool :=
  let cs := dropWs s.toList
  let ds := cs.takeWhile (fun c => c.isDigit)
  let rest := cs.dropWhile (fun c => c.isDigit)
  !ds.isEmpty && (dropWs rest).isEmpty

/-- Header/footer pattern 3 of `_clean_text`: the page-number form digits,
slash, digits. -/
def patFraction (s : String) : Bool :=
  let cs := dropWs s.toList
  let ds1 := cs.takeWhile (fun c => c.isDigit)
  let r1 := dropWs (cs.dropWhile (fun c => c.isDigit))
  !ds1.isEmpty &&
    (match r1 with
     | '/' :: r2 =>
       let r2w := dropWs r2
       let ds2 := r2w.takeWhile (fun c => c.isDigit)
       let r3 := r2w.dropWhile (fun c => c.isDigit)
       !ds2.isEmpty && (dropWs r3).isEmpty
     | _ => false)

/-- Header/footer pattern 4 of `_clean_text`: a dash-framed page number. -/
def patDashNumber (s : String) : Bool :=
  match dropWs s.toList with
  | '-' :: r =>
    let rw := dropWs r
    let ds := rw.takeWhile (fun c => c.isDigit)
    let r2 := dropWs (rw.dropWhile (fun c => c.isDigit))
    !ds.isEmpty &&
      (match r2 with
       | '-' :: r3 => (dropWs r3).isEmpty
       | _ => false)
  | _ => false

/-- Header/footer pattern 6 of `_clean_text`: one of the boilerplate header
keywords alone on the line. -/
def patKeywordOnly (s : String) : Bool :=
  let cs := dropWs s.toList
  ["公司", "股份", "有限", "年度", "报告", "年报"].any (fun k =>
    k.toList.isPrefixOf cs && (dropWs (cs.drop k.toList.length)).isEmpty)

/-- The character class of header/footer pattern 7 of `_clean_text`: CJK
unified ideographs, ASCII letters and digits, full- and half-width
parentheses, the middle dot, the enumeration comma, and whitespace. -/
def isCLSChar (c : Char) : Bool :=
  (0x4e00 ≤ c.toNat && c.toNat ≤ 0x9fa5) || c.isAlpha || c.isDigit || c.isWhitespace ||
    c = '（' || c = '）' || c = '(' || c = ')' || c = '·' || c = '、'

def reportWords : List String := ["年度报告", "半年度报告", "半年报", "季报"]

/-- The part of header/footer pattern 7 after the four-digit year: optional
whitespace, the year character, optional whitespace, one of the report-kind
words, and then a tail that the regex constrains to whitespace, an optional
scope word and class characters — all of which lie in the class, so the
tail condition is exactly that every remaining character is in the class. -/
def patReportTitleTail (cs : List Char) : Bool :=
  match dropWs cs with
  | '年' :: r =>
    let rw := dropWs r
    reportWords.any (fun w =>
      w.toList.isPrefixOf rw && ((rw.drop w.toList.length).all isCLSChar))
  | _ => false

/-- Backtracking scan of header/footer pattern 7: some split of the line
into a class-only prefix, four digits, and a matching tail. -/
def patReportTitleCore : List Char → Bool
  | [] => false
  | c1 :: rest1 =>
    (match rest1 with
     | c2 :: c3 :: c4 :: rest =>
       c1.isDigit && c2.isDigit && c3.isDigit && c4.isDigit && patReportTitleTail rest
     | _ => false)
    || (isCLSChar c1 && patReportTitleCore rest1)

/-- Header/footer pattern 7 of `_clean_text`: a repeated report-title line
(year, report-kind word, surrounded by class characters). -/
def patReportTitle (s : String) : Bool := patReportTitleCore s.toList

/-- The `header_footer_patterns` check of `_clean_text`: the line (already
stripped) matches any of the seven patterns; pattern 5 is a line of at most
three characters. -/
def headerFooterMatch (s : String) : Bool :=
  patPageNum s || patBareNumber s || patFraction s || patDashNumber s ||
    decide (s.length ≤ 3) || patKeywordOnly s || patReportTitle s

/-- Index (within the run) of the last newline of a whitespace run known to
contain one. -/
def lastNlIndex (run : List Char) : Nat :=
  run.length - 1 - run.reverse.findIdx (fun c => c = '\n')

/-- Embedding of the final substitution of `_clean_text`: a single
left-to-right pass replacing each match of the pattern
newline-whitespace-newline-whitespace-newline by two newlines.  A match must
start at a newline, and since the whitespace class itself contains the
newline, the greedy quantifiers extend every match to the last newline of
the maximal whitespace run starting there, which must contain at least
three newlines; scanning resumes after the replacement.  The fuel is the
length of the list, enough because every step consumes at least one
character. -/
def collapseBlankRunsAux : Nat → List Char → List Char
  | 0, cs => cs
  | _ + 1, [] => []
  | fuel + 1, c :: rest =>
    if c = '\n' then
      let run := (c :: rest).takeWhile (fun x => x.isWhitespace)
      if 3 ≤ run.count '\n' then
        '\n' :: '\n' :: collapseBlankRunsAux fuel ((c :: rest).drop (lastNlIndex run + 1))
      else
        c :: collapseBlankRunsAux fuel rest
    else
      c :: collapseBlankRunsAux fuel rest

def collapseBlankRuns (cs : List Char) : List Char := collapseBlankRunsAux cs.length cs

/-- The line filter of `_clean_text`: split into lines, strip each line,
drop blank lines and lines matching a header/footer pattern. -/
def cleanedLines (text : String) : List (List Char) :=
  ((splitCharsOnNl text.toList).map stripChars).filter
    (fun l => !l.isEmpty && !headerFooterMatch (String.mk l))

/-- Embedding of `PdfParser._clean_text`: split into lines, strip each line,
drop blank lines and lines matching a header/footer pattern, rejoin with
newlines, strip the result, and run the blank-run substitution. -/
def cleanText (text : String) : String :=
  if text = "" then ""
  else String.mk (collapseBlankRuns (stripChars (joinNlChars (cleanedLines text))))

/-- A text line of `pdfplumber.Page.extract_text_lines`: its text and
bounding box. -/
structure PLine where
  text : String
  x0 : Int
  x1 : Int
  top : Int
  bottom : Int
deriving DecidableEq

/-- A detected table of `pdfplumber.Page.find_tables`: its bounding box
`(x0, top, x1, bottom)` and the extracted cell rows. -/
structure PTable where
  x0 : Int
  top : Int
  x1 : Int
  bottom : Int
  rows : List (List String)
deriving DecidableEq

/-- One page of the document, as seen through the pdfplumber primitives. -/
structure Page where
  lines : List PLine
  tables : List PTable

/-- The open document: the common page list behind `reader.pages` and
`_plumber_pdf.pages`. -/
structure PDoc where
  pages : List Page

/-- The table-to-text conversion of `extract_chapter_content`: cells joined
by tabs, rows joined by newlines. -/
def tableText (t : PTable) : String :=
  joinWith "\n" (t.rows.map (fun row => joinWith "\t" row))

/-- Embedding of the nested `line_in_bbox` of `extract_chapter_content`:
rectangle overlap on both axes. -/
def lineInBbox (l : PLine) (t : PTable) : Bool :=
  decide (¬ (l.x1 < t.x0 ∨ l.x0 > t.x1)) && decide (¬ (l.bottom < t.top ∨ l.top > t.bottom))

/-- The `for idx, bbox in enumerate(table_bboxes)` search: the first table
(with its index) whose bounding box the line overlaps. -/
def findMatchingTable (l : PLine) : Nat → List PTable → Option (Nat × PTable)
  | _, [] => none
  | i, t :: ts => if lineInBbox l t then some (i, t) else findMatchingTable l (i + 1) ts

/-- Embedding of the line/table reconciliation loop of
`extract_chapter_content`: blank lines are skipped; a line overlapping a
table is replaced by the table's text the first time that table is matched
and dropped afterwards; other lines are kept stripped, in order.  Returns
the collected lines and the final emitted-table index set (consed in
emission order onto the initial set). -/
def reconcileLines (tables : List PTable) : List PLine → List Nat → List String × List Nat
  | [], emitted => ([], emitted)
  | l :: rest, emitted =>
    let t := pyStrip l.text
    if t = "" then reconcileLines tables rest emitted
    else
      match findMatchingTable l 0 tables with
      | some (idx, tb) =>
        if emitted.contains idx then reconcileLines tables rest emitted
        else
          let r := reconcileLines tables rest (idx :: emitted)
          (tableText tb :: r.1, r.2)
      | none =>
        let r := reconcileLines tables rest emitted
        (t :: r.1, r.2)

/-- The start-page trim (step 2.1 of `extract_chapter_content`): drop
everything before the first line containing the node's (non-empty) title;
if no line matches, the start index stays `0` and nothing is dropped. -/
def applyStartTrim (title : String) (ls : List String) : List String :=
  if ls.isEmpty then ls
  else
    match ls.findIdx? (fun ln => !(title == "") && strContains ln title) with
    | some i => ls.drop i
    | none => ls

/-- The end-page trim (step 2.3 of `extract_chapter_content`): when the
next-section title is non-empty and found on the page, drop that line and
everything after it. -/
def applyEndTrim (nst : String) (ls : List String) : List String :=
  if nst = "" then ls
  else
    match ls.findIdx? (fun ln => strContains ln nst) with
    | some i => ls.take i
    | none => ls

/-- The page range of `extract_chapter_content` (0-based): the single page
`[start]` when start and end coincide, else `range(start, end + 1)`. -/
def chapterPageRange (sp ep : Int) : List Nat :=
  if sp = ep then [sp.toNat]
  else List.range' sp.toNat (ep + 1 - sp).toNat

/-- Per-page body of `extract_chapter_content` for an in-range page:
table/line reconciliation, the start trim on the start page, the end trim on
the end page (or for a single shared page, when the end page is inside the
document), cleaning; pages whose cleaned text is empty and pages missing
from the document (an index error in the fallback read — logged and
skipped) yield `none`. -/
def processChapterPage (doc : PDoc) (title nst : String) (sp ep : Int) (p : Nat) :
    Option String :=
  match doc.pages[p]? with
  | none => none
  | some page =>
    let tables := page.tables.filter (fun t => !t.rows.isEmpty)
    let collected := (reconcileLines tables page.lines []).1
    let collected := if (p : Int) = sp then applyStartTrim title collected else collected
    let collected :=
      if ((p : Int) = ep ∨ sp = ep) ∧ ep < (doc.pages.length : Int) then
        applyEndTrim nst collected
      else collected
    let text := cleanText (joinWith "\n" collected)
    if text = "" then none else some text

/-- The end-page clamp of `extract_chapter_content`: an end page beyond the
document's page count is reset to the page count. -/
def clampEnd (doc : PDoc) (ep0 : Int) : Int :=
  if (doc.pages.length : Int) < ep0 then (doc.pages.length : Int) else ep0

/-- Embedding of `PdfParser.extract_chapter_content` (pdfplumber branch):
0-based start page `page_number - 1` and end page `next_sibling_page - 1`,
the out-of-range start check, the end-page clamp, the page range, per-page
processing and the final join of the non-empty page texts.  `ctx` is the
node's ancestor context, consumed by `_get_next_section_title`. -/
def extractChapterContent (doc : PDoc) (title : String) (pageNumber nextSiblingPage : Nat)
    (ctx : List (List PNode)) : String :=
  if (pageNumber : Int) - 1 < 0 ∨ (doc.pages.length : Int) ≤ (pageNumber : Int) - 1 then ""
  else
    joinWith "\n"
      ((chapterPageRange ((pageNumber : Int) - 1)
          (clampEnd doc ((nextSiblingPage : Int) - 1))).filterMap
        (processChapterPage doc title (getNextSectionTitle ctx) ((pageNumber : Int) - 1)
          (clampEnd doc ((nextSiblingPage : Int) - 1))))

/-- An element of the flat outline sequence handed to
`PdfParser.process_outline`: a node descriptor (title, resolved page number
— `0` when destination resolution failed — and the raw `outline_count`
attribute), a nested child sequence, or any other object (processed via its
string form). -/
inductive OutlineItem where
  | node : String → Nat → Option Int → OutlineItem
  | list : List OutlineItem → OutlineItem
  | other : String → OutlineItem

/-- Embedding of the nested `process_outline_items` of
`PdfParser.process_outline`: a child list is consumed by the preceding node
only when that node's `outline_count` is negative and the next element is a
list; a list encountered at the top of the scan (an orphan child list) is
logged and skipped; nodes with an empty title get the placeholder title;
non-node, non-list items become childless nodes at page `0`. -/
def ocNegative : Option Int → Bool
  | some c => decide (c < 0)
  | none => false

def titleOrPlaceholder (t : String) : String := if t = "" then "未知章节" else t

def processOutlineItems (level : Int) : List OutlineItem → List PNode
  | [] => []
  | OutlineItem.list _ :: rest => processOutlineItems level rest
  | OutlineItem.node title page oc :: OutlineItem.list childItems :: rest2 =>
    if ocNegative oc then
      PNode.mk (titleOrPlaceholder title) page level
          (processOutlineItems (level + 1) childItems) ::
        processOutlineItems level rest2
    else
      PNode.mk (titleOrPlaceholder title) page level [] ::
        processOutlineItems level (OutlineItem.list childItems :: rest2)
  | OutlineItem.node title page _oc :: rest =>
    PNode.mk (titleOrPlaceholder title) page level [] :: processOutlineItems level rest
  | OutlineItem.other s :: rest => PNode.mk s 0 level [] :: processOutlineItems level rest
termination_by l => sizeOf l
decreasing_by
  all_goals simp_wf
  all_goals omega

/-- One record of the serialized `outline` array
(`PdfOutlineNode.to_dict`). -/
structure LeafRecord where
  content : String
  section_id : String
  section_title : String
  section_path : List String
  page : Nat

/-- Embedding of `PdfOutlineNode.generate_section_id` for a node with a
parent: a node titled `"Root"` gets the empty id; otherwise its 1-based
sibling rank, dot-appended to the parent's id when that is non-empty. -/
def mkSectionId (parentId : String) (idx : Nat) (title : String) : String :=
  if title = "Root" then ""
  else if parentId = "" then toString (idx + 1)
  else parentId ++ "." ++ toString (idx + 1)

/-- Embedding of `PdfParser._collect_leaf_nodes` over the children of one
node: a childless node has its content extracted (`extract_chapter_content`,
with the boundary `_set_next_sibling_pages` assigned to it) and is emitted
as a record; a node with children only recurses.  `up` is the ancestor
context above this child list, `ancTitles` the upward title chain of the
parent (ending with the root's `"Root"`), `parentId` the parent's section
id, `idx` the 0-based position reached in the child list. -/
def collectFromChildren (doc : PDoc) (up : List (List PNode)) (ancTitles : List String)
    (parentId : String) (idx : Nat) : List PNode → List LeafRecord
  | [] => []
  | PNode.mk t p _lvl cs :: rest =>
    let sid := mkSectionId parentId idx t
    if cs.isEmpty then
      { content := extractChapterContent doc t p (assignedBoundary doc.pages.length up rest)
          (rest :: up),
        section_id := sid, section_title := t,
        section_path := sectionPathLoop (t :: ancTitles), page := p } ::
        collectFromChildren doc up ancTitles parentId (idx + 1) rest
    else
      collectFromChildren doc (rest :: up) (t :: ancTitles) sid 0 cs ++
        collectFromChildren doc up ancTitles parentId (idx + 1) rest
termination_by l => sizeOf l
decreasing_by
  all_goals simp_wf
  all_goals omega

/-- Embedding of the serialization entry point (`save_outline_to_json` after
`process_outline`): collect the leaf records under the root. -/
def serializeLeaves (doc : PDoc) (rootChildren : List PNode) : List LeafRecord :=
  collectFromChildren doc [] ["Root"] "" 0 rootChildren

lemma reconcileLines_emitted_nodup (tables : List PTable) :
    ∀ (lines : List PLine) (emitted : List Nat), emitted.Nodup →
      ((reconcileLines tables lines emitted).2).Nodup := by
  intro lines
  induction lines with
  | nil => intro emitted h; simpa [reconcileLines] using h
  | cons l rest ih =>
    intro emitted h
    by_cases ht : pyStrip l.text = ""
    · simpa [reconcileLines, ht] using ih emitted h
    · cases hf : findMatchingTable l 0 tables with
      | none => simpa [reconcileLines, ht, hf] using ih emitted h
      | some it =>
        obtain ⟨idx, tb⟩ := it
        by_cases hm : idx ∈ emitted
        · simpa [reconcileLines, ht, hf, hm] using ih emitted h
        · have hcons : (idx :: emitted).Nodup := List.nodup_cons.mpr ⟨hm, h⟩
          simpa [reconcileLines, ht, hf, hm] using ih (idx :: emitted) hcons

/-- Claim C6.  First conjunct: over any page, the trace of emitted table
indices accumulated by the reconciliation loop has no duplicates — no
table's content is ever emitted twice (and since the extraction of a page is
this same pure computation, re-running it gives the identical collected
lines).  Second conjunct: a non-blank line that matches table `idx` is
dropped outright when `idx` was already emitted, and otherwise is replaced
by exactly the table's block `tableText` (rows joined by newlines, cells by
tabs) with `idx` then marked emitted. -/
theorem c6_table_emitted_once (tables : List PTable) (lines : List PLine) :
    ((reconcileLines tables lines []).2).Nodup ∧
    (∀ (l : PLine) (rest : List PLine) (emitted : List Nat) (idx : Nat) (tb : PTable),
      pyStrip l.text ≠ "" → findMatchingTable l 0 tables = some (idx, tb) →
      (idx ∈ emitted → reconcileLines tables (l :: rest) emitted =
        reconcileLines tables rest emitted) ∧
      (idx ∉ emitted → (reconcileLines tables (l :: rest) emitted).1 =
        tableText tb :: (reconcileLines tables rest (idx :: emitted)).1)) := by
  refine ⟨reconcileLines_emitted_nodup tables lines [] List.nodup_nil, ?_⟩
  intro l rest emitted idx tb h1 h2
  constructor
  · intro hm
    simp [reconcileLines, h1, h2, hm]
  · intro hm
    simp [reconcileLines, h1, h2, hm]

/-- Witness for `c6_table_emitted_once`: a 2×2 table overlapped by one
non-blank line; the line is replaced by the table block. -/
theorem c6_table_emitted_once_witness :
    (reconcileLines [PTable.mk 0 0 10 10 [["a", "b"], ["c", "d"]]]
        [PLine.mk "row" 1 2 1 2] []).1 =
      tableText (PTable.mk 0 0 10 10 [["a", "b"], ["c", "d"]]) ::
        (reconcileLines [PTable.mk 0 0 10 10 [["a", "b"], ["c", "d"]]] [] [0]).1 :=
  ((c6_table_emitted_once [PTable.mk 0 0 10 10 [["a", "b"], ["c", "d"]]] []).2
      (PLine.mk "row" 1 2 1 2) [] [] 0 (PTable.mk 0 0 10 10 [["a", "b"], ["c", "d"]])
      (by decide) (by decide)).2 (by decide)

/-- Claim C9.  The title trims are no-ops when the marker is absent: if no
line contains the node's title, the start trim keeps the whole page; if the
resolved next-section title is empty or appears on no line, the end trim
keeps the whole page. -/
theorem c9_trims_noop_when_marker_absent (title nst : String) (ls ms : List String) :
    ((∀ ln ∈ ls, strContains ln title = false) → applyStartTrim title ls = ls) ∧
    ((nst = "" ∨ ∀ ln ∈ ms, strContains ln nst = false) → applyEndTrim nst ms = ms) := by
  constructor
  · intro h
    unfold applyStartTrim
    by_cases he : ls.isEmpty
    · simp [he]
    · have hnone : ls.findIdx? (fun ln => !(title == "") && strContains ln title) = none := by
        rw [List.findIdx?_eq_none_iff]
        intro x hx
        simp [h x hx]
      simp [he, hnone]
  · intro h
    unfold applyEndTrim
    rcases h with h | h
    · simp [h]
    · by_cases hn : nst = ""
      · simp [hn]
      · have hnone : ms.findIdx? (fun ln => strContains ln nst) = none := by
          rw [List.findIdx?_eq_none_iff]
          intro x hx
          simp [h x hx]
        simp [hn, hnone]

/-- Witness for `c9_trims_noop_when_marker_absent`: a page whose single line
contains neither the title nor the (empty) next-section title is kept
whole by both trims. -/
theorem c9_trims_noop_witness :
    applyStartTrim "T" ["abcd"] = ["abcd"] ∧ applyEndTrim "" ["wxyz"] = ["wxyz"] :=
  ⟨(c9_trims_noop_when_marker_absent "T" "" ["abcd"] ["wxyz"]).1 (by decide),
   (c9_trims_noop_when_marker_absent "T" "" ["abcd"] ["wxyz"]).2 (Or.inl rfl)⟩

/-- Claim C8.  An orphan child list — a nested sequence with no immediately
preceding node descriptor that declared children — is skipped by the tree
builder without failing (the embedding is a total function), and the
remaining items are processed in encounter order: first conjunct, a leading
orphan list is simply dropped; second conjunct, a node whose
`outline_count` declares no children does not consume a following list, so
that list is skipped as an orphan and the rest still builds. -/
theorem c8_orphan_child_list_skipped (level : Int) (l rest : List OutlineItem)
    (t : String) (p : Nat) :
    processOutlineItems level (OutlineItem.list l :: rest) =
      processOutlineItems level rest ∧
    processOutlineItems level
        (OutlineItem.node t p none :: OutlineItem.list l :: rest) =
      PNode.mk (titleOrPlaceholder t) p level [] :: processOutlineItems level rest := by
  constructor
  · simp [processOutlineItems]
  · simp [processOutlineItems, ocNegative]

/-- Claim C10.  A leaf whose outline destination was unresolvable
(`page_number = 0`): its content extraction returns the empty string (the
0-based start page is `-1`, out of range), and serialization still emits its
record, with `content = ""` and `page = 0`, before continuing with the
remaining siblings; being a total function, the walk raises nothing. -/
theorem c10_unresolved_leaf_serialized (doc : PDoc) (up : List (List PNode))
    (anc : List String) (pid : String) (idx : Nat) (t : String) (lvl : Int)
    (rest : List PNode) :
    (∀ b ctx, extractChapterContent doc t 0 b ctx = "") ∧
    collectFromChildren doc up anc pid idx (PNode.mk t 0 lvl [] :: rest) =
      { content := "", section_id := mkSectionId pid idx t, section_title := t,
        section_path := sectionPathLoop (t :: anc), page := 0 } ::
        collectFromChildren doc up anc pid (idx + 1) rest := by
  have hx : ∀ b ctx, extractChapterContent doc t 0 b ctx = "" := by
    intro b ctx
    simp [extractChapterContent]
  refine ⟨hx, ?_⟩
  simp [collectFromChildren, hx]

/-- Claim C5.  A leaf with `start_page = end_page` (both 0-based, derived as
`page_number - 1` and `next_sibling_page - 1`): the page range collapses to
exactly that one page, processed once, and on it the extraction applies both
trims — the start trim at the node's own title and the end trim at the
resolved next-section title. -/
theorem c5_single_page_chapter (doc : PDoc) (title : String) (pn : Nat)
    (ctx : List (List PNode)) (page : Page) (h1 : 1 ≤ pn)
    (h2 : doc.pages[pn - 1]? = some page) :
    chapterPageRange ((pn : Int) - 1) ((pn : Int) - 1) = [pn - 1] ∧
    extractChapterContent doc title pn pn ctx =
      cleanText (joinWith "\n" (applyEndTrim (getNextSectionTitle ctx)
        (applyStartTrim title
          ((reconcileLines (page.tables.filter (fun t => !t.rows.isEmpty))
            page.lines []).1)))) := by
  have hlt : pn - 1 < doc.pages.length := (List.getElem?_eq_some.mp h2).1
  have hcast : ((pn - 1 : Nat) : Int) = (pn : Int) - 1 := by omega
  have hrange : chapterPageRange ((pn : Int) - 1) ((pn : Int) - 1) = [pn - 1] := by
    unfold chapterPageRange
    rw [if_pos rfl]
    congr 1
    omega
  refine ⟨hrange, ?_⟩
  have hclamp : clampEnd doc ((pn : Int) - 1) = (pn : Int) - 1 := by
    unfold clampEnd
    rw [if_neg (by omega)]
  unfold extractChapterContent
  rw [if_neg (by omega), hclamp, hrange]
  have hproc : processChapterPage doc title (getNextSectionTitle ctx) ((pn : Int) - 1)
      ((pn : Int) - 1) (pn - 1) =
      (if cleanText (joinWith "\n" (applyEndTrim (getNextSectionTitle ctx)
          (applyStartTrim title
            ((reconcileLines (page.tables.filter (fun t => !t.rows.isEmpty))
              page.lines []).1)))) = "" then none
       else some (cleanText (joinWith "\n" (applyEndTrim (getNextSectionTitle ctx)
          (applyStartTrim title
            ((reconcileLines (page.tables.filter (fun t => !t.rows.isEmpty))
              page.lines []).1)))))) := by
    simp only [processChapterPage, h2, hcast]
    have hltI : (pn : Int) - 1 < (doc.pages.length : Int) := by omega
    simp [hltI]
  rw [List.filterMap_cons, hproc]
  by_cases hE : cleanText (joinWith "\n" (applyEndTrim (getNextSectionTitle ctx)
      (applyStartTrim title
        ((reconcileLines (page.tables.filter (fun t => !t.rows.isEmpty))
          page.lines []).1)))) = ""
  · rw [if_pos hE, hE]
    simp [joinWith]
  · rw [if_neg hE]
    simp [joinWith]

/-- Witness for `c5_single_page_chapter`: a one-page document and a chapter
whose boundary equals its own page. -/
theorem c5_single_page_chapter_witness :
    chapterPageRange (((1 : Nat) : Int) - 1) (((1 : Nat) : Int) - 1) = [1 - 1] ∧
    extractChapterContent (PDoc.mk [Page.mk [] []]) "T" 1 1 [] =
      cleanText (joinWith "\n" (applyEndTrim (getNextSectionTitle [])
        (applyStartTrim "T"
          ((reconcileLines ((Page.mk [] []).tables.filter (fun t => !t.rows.isEmpty))
            (Page.mk [] []).lines []).1)))) :=
  c5_single_page_chapter (PDoc.mk [Page.mk [] []]) "T" 1 [] (Page.mk [] [])
    (by decide) rfl

lemma head_dropWhile_false {α : Type} (p : α → Bool) :
    ∀ (l : List α) (c : α) (t : List α), l.dropWhile p = c :: t → p c = false := by
  intro l
  induction l with
  | nil => intro c t h; simp [List.dropWhile] at h
  | cons a as ih =>
    intro c t h
    rw [List.dropWhile_cons] at h
    by_cases hp : p a = true
    · rw [if_pos hp] at h
      exact ih c t h
    · rw [if_neg hp] at h
      injection h with h1 h2
      subst h1
      simpa using hp

lemma stripChars_prefix_core (cs : List Char) :
    stripChars cs <+: cs.dropWhile (fun c => c.isWhitespace) := by
  unfold stripChars
  rw [← List.reverse_suffix, List.reverse_reverse]
  exact List.dropWhile_suffix _

lemma stripChars_head_not_ws (cs : List Char) (c : Char) (t : List Char)
    (h : stripChars cs = c :: t) : c.isWhitespace = false := by
  obtain ⟨u, hu⟩ := stripChars_prefix_core cs
  rw [h] at hu
  exact head_dropWhile_false _ cs c (t ++ u) hu.symm

lemma stripChars_getLast_not_ws (cs : List Char) (c : Char)
    (h : (stripChars cs).getLast? = some c) : c.isWhitespace = false := by
  unfold stripChars at h
  rw [List.getLast?_reverse] at h
  cases hd : ((cs.dropWhile (fun c => c.isWhitespace)).reverse.dropWhile
      (fun c => c.isWhitespace)) with
  | nil => rw [hd] at h; simp at h
  | cons d ds =>
    rw [hd] at h
    injection h with h1
    subst h1
    exact head_dropWhile_false _ _ _ _ hd

lemma stripChars_eq_self (cs : List Char)
    (h1 : ∀ c, cs.head? = some c → c.isWhitespace = false)
    (h2 : ∀ c, cs.getLast? = some c → c.isWhitespace = false) :
    stripChars cs = cs := by
  cases cs with
  | nil => rfl
  | cons a as =>
    have ha : a.isWhitespace = false := h1 a rfl
    unfold stripChars
    rw [List.dropWhile_cons, if_neg (by simp [ha])]
    cases hL : (a :: as).getLast? with
    | none => simp at hL
    | some c =>
      have hc := h2 c hL
      have hrevhead : (a :: as).reverse.head? = some c := by
        rw [List.head?_reverse]; exact hL
      cases hr : (a :: as).reverse with
      | nil => rw [hr] at hrevhead; simp at hrevhead
      | cons d ds =>
        rw [hr] at hrevhead
        injection hrevhead with hdc
        subst hdc
        rw [List.dropWhile_cons]
        rw [if_neg (by simp [hc])]
        rw [← hr]
        rw [List.reverse_reverse]

lemma mem_stripChars {x : Char} {cs : List Char} (hx : x ∈ stripChars cs) : x ∈ cs := by
  unfold stripChars at hx
  rw [List.mem_reverse] at hx
  have h1 : x ∈ (cs.dropWhile (fun c => c.isWhitespace)).reverse :=
    (List.dropWhile_sublist _).subset hx
  rw [List.mem_reverse] at h1
  exact (List.dropWhile_sublist _).subset h1

lemma splitCharsOnNl_no_nl : ∀ (cs : List Char), ∀ l ∈ splitCharsOnNl cs, '\n' ∉ l := by
  intro cs
  induction cs with
  | nil =>
    intro l hl
    simp [splitCharsOnNl] at hl
    simp [hl]
  | cons c rest ih =>
    intro l hl
    by_cases hc : c = '\n'
    · rw [splitCharsOnNl, if_pos hc] at hl
      rcases List.mem_cons.mp hl with h | h
      · simp [h]
      · exact ih l h
    · rw [splitCharsOnNl, if_neg hc] at hl
      cases hs : splitCharsOnNl rest with
      | nil =>
        rw [hs] at hl
        simp at hl
        subst hl
        intro hmem
        simp at hmem
        exact hc hmem.symm
      | cons m ms =>
        rw [hs] at hl
        rcases List.mem_cons.mp hl with h | h
        · subst h
          intro hmem
          rcases List.mem_cons.mp hmem with h | h
          · exact hc h.symm
          · exact ih m (by rw [hs]; exact List.mem_cons_self m ms) h
        · exact ih l (by rw [hs]; exact List.mem_cons_of_mem m h)

/-- Adjacency condition on the cleaner's output characters: a newline never
touches another whitespace character (in particular, never another
newline), so the text has no blank lines. -/
def okPair (a b : Char) : Prop :=
  ¬(a = '\n' ∧ b.isWhitespace = true) ∧ ¬(a.isWhitespace = true ∧ b = '\n')

/-- A retained line of the cleaner: non-empty, newline-free, stripped. -/
def GoodLine (l : List Char) : Prop :=
  l ≠ [] ∧ (∀ c ∈ l, c ≠ '\n') ∧ (∀ c, l.head? = some c → c.isWhitespace = false) ∧
    (∀ c, l.getLast? = some c → c.isWhitespace = false)

lemma chain'_okPair_of_no_nl : ∀ (l : List Char), (∀ c ∈ l, c ≠ '\n') →
    List.Chain' okPair l := by
  intro l
  induction l with
  | nil => intro _; simp
  | cons a as ih =>
    intro h
    rw [List.chain'_cons']
    refine ⟨?_, ih (fun c hc => h c (List.mem_cons_of_mem a hc))⟩
    intro y hy
    have hy2 : y ∈ as := List.mem_of_mem_head? hy
    exact ⟨fun hp => h a (List.mem_cons_self a as) hp.1,
           fun hp => h y (List.mem_cons_of_mem a hy2) hp.2⟩

lemma joinNlChars_ne_nil (l : List Char) (ls : List (List Char)) (hl : l ≠ []) :
    joinNlChars (l :: ls) ≠ [] := by
  cases ls with
  | nil => simpa [joinNlChars] using hl
  | cons l2 ls2 => simp [joinNlChars]

lemma joinNlChars_head (l : List Char) (ls : List (List Char)) (hl : l ≠ []) :
    (joinNlChars (l :: ls)).head? = l.head? := by
  cases ls with
  | nil => simp [joinNlChars]
  | cons l2 ls2 =>
    cases l with
    | nil => exact absurd rfl hl
    | cons a t => simp [joinNlChars]

lemma joinNl_good : ∀ (L : List (List Char)), (∀ l ∈ L, GoodLine l) →
    List.Chain' okPair (joinNlChars L) ∧
    (∀ c, (joinNlChars L).head? = some c → c.isWhitespace = false) ∧
    (∀ c, (joinNlChars L).getLast? = some c → c.isWhitespace = false) := by
  intro L
  induction L with
  | nil =>
    intro _
    refine ⟨by simp [joinNlChars], ?_, ?_⟩ <;>
      · intro c hc
        simp [joinNlChars] at hc
  | cons l ls ih =>
    intro hG
    obtain ⟨hne, hnl, hhd, hlast⟩ := hG l (List.mem_cons_self l ls)
    cases ls with
    | nil =>
      exact ⟨chain'_okPair_of_no_nl l hnl, by simpa [joinNlChars] using hhd,
             by simpa [joinNlChars] using hlast⟩
    | cons l2 ls2 =>
      obtain ⟨ihc, ihhd, ihlast⟩ := ih (fun x hx => hG x (List.mem_cons_of_mem l hx))
      obtain ⟨hne2, hnl2, hhd2, _⟩ := hG l2 (List.mem_cons_of_mem l (List.mem_cons_self l2 ls2))
      have hJne : joinNlChars (l2 :: ls2) ≠ [] := joinNlChars_ne_nil l2 ls2 hne2
      have hj : joinNlChars (l :: l2 :: ls2) = l ++ '\n' :: joinNlChars (l2 :: ls2) := by
        simp [joinNlChars]
      rw [hj]
      refine ⟨?_, ?_, ?_⟩
      · apply List.Chain'.append (chain'_okPair_of_no_nl l hnl)
        · rw [List.chain'_cons']
          refine ⟨?_, ihc⟩
          intro y hy
          have hyh : (joinNlChars (l2 :: ls2)).head? = some y := hy
          rw [joinNlChars_head l2 ls2 hne2] at hyh
          have hyws : y.isWhitespace = false := hhd2 y hyh
          have hymem : y ∈ l2 := List.mem_of_mem_head? hyh
          exact ⟨fun hp => by rw [hp.2] at hyws; simp at hyws,
                 fun hp => hnl2 y hymem hp.2⟩
        · intro x hx y hy
          have hxl : l.getLast? = some x := hx
          have hxws : x.isWhitespace = false := hlast x hxl
          have hxmem : x ∈ l := List.mem_of_mem_getLast? hxl
          have hy2 : y = '\n' := by
            have : (('\n' : Char) :: joinNlChars (l2 :: ls2)).head? = some y := hy
            simpa using this.symm
          exact ⟨fun hp => hnl x hxmem hp.1,
                 fun hp => by rw [hp.1] at hxws; simp at hxws⟩
      · intro c hc
        cases l with
        | nil => exact absurd rfl hne
        | cons a t =>
          simp at hc
          subst hc
          exact hhd _ rfl
      · intro c hc
        rw [List.getLast?_append_of_ne_nil _ (by simp)] at hc
        cases hJ : joinNlChars (l2 :: ls2) with
        | nil => exact absurd hJ hJne
        | cons d ds =>
          rw [hJ, List.getLast?_cons_cons] at hc
          exact ihlast c (by rw [hJ]; exact hc)

lemma collapse_id_of_chain : ∀ (cs : List Char), List.Chain' okPair cs →
    ∀ fuel, collapseBlankRunsAux fuel cs = cs := by
  intro cs
  induction cs with
  | nil => intro _ fuel; cases fuel <;> rfl
  | cons c rest ih =>
    intro hch fuel
    have hch2 : List.Chain' okPair rest := (List.chain'_cons'.mp hch).2
    cases fuel with
    | zero => rfl
    | succ n =>
      by_cases hc : c = '\n'
      · subst hc
        have hrun : (('\n' : Char) :: rest).takeWhile (fun x => x.isWhitespace) = ['\n'] := by
          rw [List.takeWhile_cons, if_pos (by decide)]
          cases rest with
          | nil => rfl
          | cons b bs =>
            have hok := (List.chain'_cons'.mp hch).1 b rfl
            have hb : b.isWhitespace = false := by
              by_contra hbb
              exact hok.1 ⟨rfl, by simpa using hbb⟩
            rw [List.takeWhile_cons, if_neg (by simp [hb])]
        simp only [collapseBlankRunsAux, hrun]
        rw [if_pos trivial, if_neg (by decide), ih hch2 n]
      · simp only [collapseBlankRunsAux]
        rw [if_neg hc, ih hch2 n]

lemma cleanedLines_good (text : String) : ∀ l ∈ cleanedLines text, GoodLine l := by
  intro l hl
  unfold cleanedLines at hl
  rw [List.mem_filter] at hl
  obtain ⟨hmem, hcond⟩ := hl
  rw [List.mem_map] at hmem
  obtain ⟨l0, hl0, rfl⟩ := hmem
  have hne : stripChars l0 ≠ [] := by
    intro h0
    rw [h0] at hcond
    simp at hcond
  refine ⟨hne, ?_, ?_, ?_⟩
  · intro c hc hceq
    have hmem0 : c ∈ l0 := mem_stripChars hc
    subst hceq
    exact splitCharsOnNl_no_nl text.toList l0 hl0 hmem0
  · intro c hc
    cases hL : stripChars l0 with
    | nil => rw [hL] at hc; simp at hc
    | cons d ds =>
      rw [hL] at hc
      injection hc with h1
      subst h1
      exact stripChars_head_not_ws l0 _ ds hL
  · intro c hc
    exact stripChars_getLast_not_ws l0 c hc

/-- Claim C7 (amended).  For every input, the cleaner's output is exactly
the retained (stripped, non-blank, non-header/footer) lines rejoined in
order with single newlines: the final strip is a no-op (the output is
already trimmed) and the blank-run substitution is a no-op because blank
lines were removed entirely by the line filter — no newline in the output
touches another whitespace character, so the output contains no blank line
at all (rather than one blank line per collapsed run). -/
theorem c7_clean_text_amended (text : String) :
    cleanText text = String.mk (joinNlChars (cleanedLines text)) ∧
    pyStrip (cleanText text) = cleanText text ∧
    List.Chain' okPair (cleanText text).toList := by
  by_cases h0 : text = ""
  · subst h0
    have h1 : cleanText "" = String.mk (joinNlChars (cleanedLines "")) := by decide
    refine ⟨h1, by decide, ?_⟩
    have h2 : (cleanText "").toList = [] := by decide
    rw [h2]
    simp
  · have hgood := cleanedLines_good text
    obtain ⟨hchain, hhd, hlast⟩ := joinNl_good (cleanedLines text) hgood
    have hstrip : stripChars (joinNlChars (cleanedLines text)) =
        joinNlChars (cleanedLines text) := stripChars_eq_self _ hhd hlast
    have hcol : collapseBlankRuns (joinNlChars (cleanedLines text)) =
        joinNlChars (cleanedLines text) := collapse_id_of_chain _ hchain _
    have hct : cleanText text = String.mk (joinNlChars (cleanedLines text)) := by
      unfold cleanText
      rw [if_neg h0, hstrip, hcol]
    refine ⟨hct, ?_, ?_⟩
    · rw [hct]
      unfold pyStrip
      have htl : (String.mk (joinNlChars (cleanedLines text))).toList =
          joinNlChars (cleanedLines text) := rfl
      rw [htl, hstrip]
    · rw [hct]
      have htl : (String.mk (joinNlChars (cleanedLines text))).toList =
          joinNlChars (cleanedLines text) := rfl
      rw [htl]
      exact hchain

/-- Claim C7 (counterexample).  On the input with two blank lines between
two retained lines, the cleaner removes the blank lines entirely instead of
collapsing them to exactly one blank line. -/
theorem c7_blank_collapse_counterexample :
    cleanText "abcd\n\n\nefgh" = "abcd\nefgh" ∧
    cleanText "abcd\n\n\nefgh" ≠ "abcd\n\nefgh" := by
  constructor <;> decide
